import Mathlib

/-!
Shallow embedding of `src/day2.py` and `src/day3.py` from
pwschaedler/advent-of-code-2021, together with proofs of the specified
properties of the diagnostic-report core and the submarine depth invariant.

Python `int` values are modelled as `Int` (day 2 state) or `Nat` (bit digits,
which are always non-negative).  Operations that can raise a Python exception
(`assert`, `int('...', 2)` on malformed text, indexing an empty list) return
`Option`, with `none` standing for the raised exception.
-/

namespace AoC2021

/-! ## Day 2: submarine movement (`src/day2.py`) -/

/-- Enum `InstructionType` of `day2.py`. -/
inductive InstructionType where
  | forward
  | down
  | up
deriving DecidableEq, Repr

/-- Dataclass `Instruction` of `day2.py`: an instruction type and a value. -/
structure Instruction where
  instruction_type : InstructionType
  value : Int
deriving DecidableEq, Repr

/-- Dataclass `Submarine` of `day2.py`: horizontal position and depth. -/
structure Submarine where
  position : Int := 0
  depth : Int := 0
deriving DecidableEq, Repr

/-- `Submarine.move_forward`: `self.position += value`. -/
def Submarine.move_forward (s : Submarine) (value : Int) : Submarine :=
  { s with position := s.position + value }

/-- `Submarine.move_down`: `self.depth += value`. -/
def Submarine.move_down (s : Submarine) (value : Int) : Submarine :=
  { s with depth := s.depth + value }

/-- `Submarine.move_up`: `self.depth -= value; self.depth = max(0, self.depth)`. -/
def Submarine.move_up (s : Submarine) (value : Int) : Submarine :=
  { s with depth := max 0 (s.depth - value) }

/-- `Submarine.process_instruction`: dispatch through `instruction_map`,
which binds FORWARD/DOWN/UP to the three `move_*` methods. -/
def Submarine.process_instruction (s : Submarine) (i : Instruction) : Submarine :=
  match i.instruction_type with
  | .forward => s.move_forward i.value
  | .down => s.move_down i.value
  | .up => s.move_up i.value

/-- Subclass `AimSubmarine` of `day2.py`: position, depth and aim (all start 0). -/
structure AimSubmarine where
  position : Int := 0
  depth : Int := 0
  aim : Int := 0
deriving DecidableEq, Repr

/-- `AimSubmarine.move_forward`: `position += value; depth += aim * value;
depth = max(0, depth)`. -/
def AimSubmarine.move_forward (s : AimSubmarine) (value : Int) : AimSubmarine :=
  { s with position := s.position + value, depth := max 0 (s.depth + s.aim * value) }

/-- `AimSubmarine.move_down`: `self.aim += value`. -/
def AimSubmarine.move_down (s : AimSubmarine) (value : Int) : AimSubmarine :=
  { s with aim := s.aim + value }

/-- `AimSubmarine.move_up`: `self.aim -= value`. -/
def AimSubmarine.move_up (s : AimSubmarine) (value : Int) : AimSubmarine :=
  { s with aim := s.aim - value }

/-- `process_instruction` on an `AimSubmarine`: the inherited dispatch calls the
overridden `move_*` methods. -/
def AimSubmarine.process_instruction (s : AimSubmarine) (i : Instruction) : AimSubmarine :=
  match i.instruction_type with
  | .forward => s.move_forward i.value
  | .down => s.move_down i.value
  | .up => s.move_up i.value

/-- The instruction loop of `calculate_submarine_norm` on a plain `Submarine`. -/
def runSubmarine (instructions : List Instruction) : Submarine :=
  instructions.foldl Submarine.process_instruction {}

/-- The instruction loop of `calculate_submarine_norm` on an `AimSubmarine`. -/
def runAimSubmarine (instructions : List Instruction) : AimSubmarine :=
  instructions.foldl AimSubmarine.process_instruction {}

/-! ## Day 3: bit strings and the diagnostic report (`src/day3.py`) -/

/-- Python `int(c)` on a single character: succeeds exactly on a decimal digit
character, giving its value.  (`day3.py` only ever feeds it characters of an
input line, so ASCII digits are the relevant domain.) -/
def charToDigit (c : Char) : Option Nat :=
  if 48 ≤ c.toNat ∧ c.toNat ≤ 57 then some (c.toNat - 48) else none

/-- Decimal digits of `n`, most significant first, with explicit fuel
(the loop of Python `str(n)` for a non-negative `n`). -/
def decCore : Nat → Nat → List Char
  | 0, _ => []
  | fuel + 1, n =>
    if n = 0 then [] else decCore fuel (n / 10) ++ [Char.ofNat (48 + n % 10)]

/-- Python `str(n)` for a non-negative integer `n`, as a character list. -/
def decRepr (n : Nat) : List Char :=
  if n = 0 then ['0'] else decCore n n

/-- Binary digits of `n`, most significant first, with explicit fuel. -/
def binCore : Nat → Nat → List Char
  | 0, _ => []
  | fuel + 1, n =>
    if n = 0 then [] else binCore fuel (n / 2) ++ [if n % 2 = 1 then '1' else '0']

/-- Python `f'{n:b}'` for a non-negative integer `n`: binary digits, most
significant first, `"0"` for zero. -/
def binDigits (n : Nat) : List Char :=
  if n = 0 then ['0'] else binCore n n

/-- Python `int(s, 2)`: fails on the empty string or on any character other
than '0'/'1' (for the digit strings `day3.py` produces), otherwise the value
of the binary numeral. -/
def parseBin (s : String) : Option Nat :=
  if s.data.isEmpty then none
  else if s.data.all (fun c => c == '0' || c == '1') then
    some (s.data.foldl (fun a c => 2 * a + (if c == '1' then 1 else 0)) 0)
  else none

/-- Dataclass `BitString` of `day3.py`: a list of digit values. -/
structure BitString where
  bits : List Nat
deriving DecidableEq, Repr

namespace BitString

/-- `BitString.__repr__`: `''.join([str(bit) for bit in self.bits])`. -/
def reprStr (b : BitString) : String :=
  String.mk (b.bits.foldr (fun d acc => decRepr d ++ acc) [])

/-- `BitString.__int__`: `int(''.join([str(bit) for bit in self.bits]), 2)`;
`none` models the `ValueError` Python raises on the empty or non-binary string. -/
def toInt (b : BitString) : Option Nat :=
  parseBin b.reprStr

/-- `BitString.get_bit`: `assert position < len(self.bits)` then index;
`none` models the `AssertionError`. -/
def get_bit (b : BitString) (position : Nat) : Option Nat :=
  if position < b.bits.length then some (b.bits.getD position 0) else none

/-- `BitString.from_str`: `BitString([int(c) for c in list(s)])`;
`none` models the `ValueError` of `int(c)` on a non-digit character. -/
def from_str (s : String) : Option BitString :=
  (s.data.mapM charToDigit).map BitString.mk

/-- `BitString.flip`: `['1' if bit == 0 else '0' for bit in self.bits]`,
joined and re-parsed through `from_str`. -/
def flip (b : BitString) : Option BitString :=
  from_str (String.mk (b.bits.map (fun bit => if bit = 0 then '1' else '0')))

/-- `BitString.int_repr`: `f'{value:0>{length}b}'` — the binary digits of
`value`, left-padded with '0' to width `length` (longer output is kept as is). -/
def int_repr (value length : Nat) : String :=
  String.mk (List.replicate (length - (binDigits value).length) '0' ++ binDigits value)

/-- `BitString.from_int`: `from_str(int_repr(value, length))`. -/
def from_int (value length : Nat) : Option BitString :=
  from_str (int_repr value length)

end BitString

/-- Dataclass `DiagnosticReport` of `day3.py`: a list of `BitString` records. -/
structure DiagnosticReport where
  records : List BitString
deriving DecidableEq, Repr

namespace DiagnosticReport

/-- `DiagnosticReport.bit_length`: `len(self.records[0])`; `none` models the
`IndexError` on an empty record list. -/
def bit_length (rpt : DiagnosticReport) : Option Nat :=
  rpt.records.head?.map (fun b => b.bits.length)

/-- The generator sum `sum(record.get_bit(i) for record in self.records)`:
fails as soon as some record's `get_bit` fails. -/
def sumOnes (records : List BitString) (i : Nat) : Option Nat :=
  (records.mapM (fun (r : BitString) => r.get_bit i)).map (fun l => l.foldl (· + ·) 0)

/-- `DiagnosticReport.gamma_rate`: per position, '1' when the sum of bits is
strictly above `len(records) // 2`, then the integer value of the digit string. -/
def gamma_rate (rpt : DiagnosticReport) : Option Nat :=
  rpt.bit_length.bind (fun L =>
    ((List.range L).mapM (fun i =>
        (sumOnes rpt.records i).bind (fun ones =>
          some (if rpt.records.length / 2 < ones then '1' else '0')))).bind
      (fun most_common_bits =>
        (BitString.from_str (String.mk most_common_bits)).bind (fun b => b.toInt)))

/-- `DiagnosticReport.epsilon_rate`: the gamma rate re-encoded at the report's
bit length, flipped, read back as an integer. -/
def epsilon_rate (rpt : DiagnosticReport) : Option Nat :=
  rpt.gamma_rate.bind (fun g =>
    rpt.bit_length.bind (fun L =>
      (BitString.from_int g L).bind (fun gb =>
        gb.flip.bind (fun f => f.toInt))))

/-- `DiagnosticReport.power_consumption`: `self.gamma_rate * self.epsilon_rate`. -/
def power_consumption (rpt : DiagnosticReport) : Option Nat :=
  rpt.gamma_rate.bind (fun g =>
    rpt.epsilon_rate.bind (fun e => some (g * e)))

end DiagnosticReport

/-! ### Specification-side value functions

These express, independently of the `Option` plumbing, what the spec calls the
"integer value" of a digit sequence and the per-position tallies. -/

/-- The integer value of a most-significant-first digit sequence, as computed
by `int(s, 2)` on its rendering: `foldVal [1,0,1] = 5`. -/
def foldVal (ds : List Nat) : Nat :=
  ds.foldl (fun a d => 2 * a + d) 0

/-- The digit value of a '0'/'1' character. -/
def bitv (c : Char) : Nat :=
  if c = '1' then 1 else 0

/-- The number of records with a 1 at position `i`. -/
def countOnes (records : List BitString) (i : Nat) : Nat :=
  records.countP (fun r => r.bits.getD i 0 == 1)

/-- The majority digit sequence described by the spec: digit `i` is 1 exactly
when strictly more than `floor(recordCount / 2)` records carry a 1 there. -/
def majorityBits (records : List BitString) (L : Nat) : List Nat :=
  (List.range L).map (fun i => if records.length / 2 < countOnes records i then 1 else 0)

/-- The 12-record example collection of `test_example_part1`. -/
def exampleRecords : List BitString :=
  [⟨[0,0,1,0,0]⟩, ⟨[1,1,1,1,0]⟩, ⟨[1,0,1,1,0]⟩, ⟨[1,0,1,1,1]⟩,
   ⟨[1,0,1,0,1]⟩, ⟨[0,1,1,1,1]⟩, ⟨[0,0,1,1,1]⟩, ⟨[1,1,1,0,0]⟩,
   ⟨[1,0,0,0,0]⟩, ⟨[1,1,0,0,1]⟩, ⟨[0,0,0,1,0]⟩, ⟨[0,1,0,1,0]⟩]

/-- The per-position least-common-bit tally the spec contrasts with the
complement-based minority value: digit `i` is 1 exactly when 1 is strictly
less common than 0 there (exact ties resolve to 0). -/
def minorityTally (records : List BitString) (L : Nat) : Nat :=
  foldVal ((List.range L).map
    (fun i => if countOnes records i < records.length - countOnes records i then 1 else 0))

/-! ## Helper lemmas -/

theorem mapM_eq_map {α β : Type} (f : α → Option β) (g : α → β) :
    ∀ l : List α, (∀ x ∈ l, f x = some (g x)) → l.mapM f = some (l.map g) := by
  intro l
  induction l with
  | nil => intro _; rfl
  | cons x xs ih =>
    intro h
    rw [List.mapM_cons, h x (by simp), ih (fun y hy => h y (by simp [hy]))]
    rfl

theorem decRepr_digit : ∀ d < 10, decRepr d = [Char.ofNat (48 + d)] := by decide

theorem reprStr_digits (ds : List Nat) (h : ∀ d ∈ ds, d ≤ 9) :
    BitString.reprStr ⟨ds⟩ = String.mk (ds.map (fun d => Char.ofNat (48 + d))) := by
  unfold BitString.reprStr
  congr 1
  induction ds with
  | nil => rfl
  | cons d ds ih =>
    have hd : d < 10 := Nat.lt_succ_of_le (h d (by simp))
    simp only [List.foldr_cons, List.map_cons]
    rw [decRepr_digit d hd, ih (fun x hx => h x (by simp [hx]))]
    rfl

theorem from_str_binChars (cs : List Char) (h : ∀ c ∈ cs, c = '0' ∨ c = '1') :
    BitString.from_str (String.mk cs) = some ⟨cs.map bitv⟩ := by
  unfold BitString.from_str
  rw [show (String.mk cs).data = cs from rfl,
    mapM_eq_map charToDigit bitv cs
      (fun c hc => by rcases h c hc with h | h <;> subst h <;> rfl)]
  rfl

theorem parseBin_binChars (cs : List Char) (hne : cs ≠ []) (h : ∀ c ∈ cs, c = '0' ∨ c = '1') :
    parseBin (String.mk cs) =
      some (cs.foldl (fun a c => 2 * a + (if c == '1' then 1 else 0)) 0) := by
  have hemp : (String.mk cs).data.isEmpty = false := by
    cases cs with
    | nil => exact absurd rfl hne
    | cons c cs => rfl
  have hall : (String.mk cs).data.all (fun c => c == '0' || c == '1') = true := by
    rw [show (String.mk cs).data = cs from rfl, List.all_eq_true]
    intro c hc
    rcases h c hc with h | h <;> subst h <;> rfl
  unfold parseBin
  rw [hemp, hall]
  rfl

theorem toInt_eq_foldVal (ds : List Nat) (hne : ds ≠ []) (h : ∀ d ∈ ds, d ≤ 1) :
    BitString.toInt ⟨ds⟩ = some (foldVal ds) := by
  unfold BitString.toInt
  rw [reprStr_digits ds (fun d hd => le_trans (h d hd) (by norm_num))]
  rw [parseBin_binChars _ (by simpa using hne)
      (fun c hc => by
        rcases List.mem_map.mp hc with ⟨d, hd, rfl⟩
        have hd1 : d ≤ 1 := h d hd
        interval_cases d
        · exact Or.inl rfl
        · exact Or.inr rfl)]
  congr 1
  rw [List.foldl_map]
  unfold foldVal
  apply List.foldl_ext
  intro a d hd
  have hd1 : d ≤ 1 := h d hd
  interval_cases d <;> rfl

theorem foldVal_append_singleton (ds : List Nat) (d : Nat) :
    foldVal (ds ++ [d]) = 2 * foldVal ds + d := by
  unfold foldVal
  rw [List.foldl_append]
  rfl

theorem foldVal_map_range (L : Nat) (f : Nat → Nat) :
    foldVal ((List.range L).map f) = ∑ i ∈ Finset.range L, f i * 2 ^ (L - 1 - i) := by
  induction L with
  | zero => rfl
  | succ L ih =>
    rw [List.range_succ, List.map_append, List.map_singleton, foldVal_append_singleton, ih,
      Finset.sum_range_succ]
    have h1 : L + 1 - 1 - L = 0 := by omega
    rw [h1, pow_zero, mul_one]
    congr 1
    rw [Finset.mul_sum]
    apply Finset.sum_congr rfl
    intro i hi
    have hi' : i < L := Finset.mem_range.mp hi
    have h2 : L + 1 - 1 - i = (L - 1 - i) + 1 := by omega
    rw [h2, pow_succ]
    ring

theorem foldl_val_lt (ds : List Nat) (h : ∀ d ∈ ds, d ≤ 1) :
    ∀ a, ds.foldl (fun x d => 2 * x + d) a < (a + 1) * 2 ^ ds.length := by
  induction ds with
  | nil => intro a; simp
  | cons d ds ih =>
    intro a
    have hd : d ≤ 1 := h d (by simp)
    simp only [List.foldl_cons, List.length_cons]
    refine lt_of_lt_of_le (ih (fun x hx => h x (by simp [hx])) (2 * a + d)) ?_
    have h2 : 2 * a + d + 1 ≤ 2 * (a + 1) := by omega
    calc (2 * a + d + 1) * 2 ^ ds.length ≤ 2 * (a + 1) * 2 ^ ds.length :=
          Nat.mul_le_mul_right _ h2
      _ = (a + 1) * 2 ^ (ds.length + 1) := by rw [pow_succ]; ring

theorem foldVal_lt (ds : List Nat) (h : ∀ d ∈ ds, d ≤ 1) : foldVal ds < 2 ^ ds.length := by
  simpa using foldl_val_lt ds h 0

theorem foldl_flip_pair (ds : List Nat) (h : ∀ d ∈ ds, d ≤ 1) :
    ∀ a b, ds.foldl (fun x d => 2 * x + d) a +
      (ds.map (fun d => if d = 0 then 1 else 0)).foldl (fun x d => 2 * x + d) b =
      (a + b) * 2 ^ ds.length + (2 ^ ds.length - 1) := by
  induction ds with
  | nil => intro a b; simp
  | cons d ds ih =>
    intro a b
    have hd : d ≤ 1 := h d (by simp)
    simp only [List.map_cons, List.foldl_cons, List.length_cons]
    rw [ih (fun x hx => h x (by simp [hx]))]
    obtain ⟨Q, hQ⟩ : ∃ Q, 2 ^ ds.length = Q + 1 :=
      ⟨2 ^ ds.length - 1, by have := Nat.one_le_two_pow (n := ds.length); omega⟩
    rw [pow_succ, hQ]
    have hsum : 2 * a + d + (2 * b + (if d = 0 then 1 else 0)) = 2 * (a + b) + 1 := by
      interval_cases d <;> simp <;> ring
    have hsub1 : Q + 1 - 1 = Q := by omega
    have hsub2 : (Q + 1) * 2 - 1 = 2 * Q + 1 := by omega
    rw [hsub1, hsub2]
    nlinarith [hsum]

theorem foldVal_flip (ds : List Nat) (h : ∀ d ∈ ds, d ≤ 1) :
    foldVal (ds.map (fun d => if d = 0 then 1 else 0)) = 2 ^ ds.length - 1 - foldVal ds := by
  have hpair := foldl_flip_pair ds h 0 0
  have hlt := foldVal_lt ds h
  unfold foldVal at *
  omega

theorem bitv_le_one (c : Char) : bitv c ≤ 1 := by
  unfold bitv
  split <;> omega

theorem binCore_chars (fuel : Nat) : ∀ n, n ≤ fuel → ∀ c ∈ binCore fuel n, c = '0' ∨ c = '1' := by
  induction fuel with
  | zero => intro n hn c hc; simp [binCore] at hc
  | succ fuel ih =>
    intro n hn c hc
    unfold binCore at hc
    by_cases h0 : n = 0
    · simp [h0] at hc
    · rw [if_neg h0] at hc
      rcases List.mem_append.mp hc with h | h
      · exact ih (n / 2) (by omega) c h
      · simp only [List.mem_singleton] at h
        subst h
        by_cases hm : n % 2 = 1 <;> simp [hm]

theorem binCore_val (fuel : Nat) : ∀ n, n ≤ fuel →
    foldVal ((binCore fuel n).map bitv) = n := by
  induction fuel with
  | zero => intro n hn; interval_cases n; rfl
  | succ fuel ih =>
    intro n hn
    by_cases h0 : n = 0
    · subst h0; rfl
    · unfold binCore
      rw [if_neg h0, List.map_append, List.map_singleton, foldVal_append_singleton,
        ih (n / 2) (by omega)]
      have hb : bitv (if n % 2 = 1 then '1' else '0') = n % 2 := by
        by_cases hm : n % 2 = 1
        · rw [if_pos hm, hm]; rfl
        · rw [if_neg hm]
          have h2 : n % 2 = 0 := by omega
          rw [h2]; rfl
      rw [hb]
      omega

theorem binCore_length_le (fuel : Nat) : ∀ n L, n ≤ fuel → n < 2 ^ L →
    (binCore fuel n).length ≤ L := by
  induction fuel with
  | zero => intro n L hn _; interval_cases n; simp [binCore]
  | succ fuel ih =>
    intro n L hn hlt
    by_cases h0 : n = 0
    · subst h0; simp [binCore]
    · unfold binCore
      rw [if_neg h0, List.length_append]
      cases L with
      | zero =>
        exfalso
        simp only [pow_zero] at hlt
        omega
      | succ L =>
        have hdiv : n / 2 < 2 ^ L := by
          rw [Nat.div_lt_iff_lt_mul (by norm_num : 0 < 2)]
          rw [pow_succ] at hlt
          exact hlt
        have := ih (n / 2) L (by omega) hdiv
        simp only [List.length_singleton]
        omega

theorem binCore_length_gt (fuel : Nat) : ∀ n L, n ≤ fuel → 2 ^ L ≤ n →
    L < (binCore fuel n).length := by
  induction fuel with
  | zero =>
    intro n L hn hge
    interval_cases n
    exfalso
    have := Nat.one_le_two_pow (n := L)
    omega
  | succ fuel ih =>
    intro n L hn hge
    have h0 : n ≠ 0 := by
      have := Nat.one_le_two_pow (n := L)
      omega
    unfold binCore
    rw [if_neg h0, List.length_append]
    cases L with
    | zero => simp only [List.length_singleton]; omega
    | succ L =>
      have hdiv : 2 ^ L ≤ n / 2 := by
        rw [Nat.le_div_iff_mul_le (by norm_num : 0 < 2)]
        rw [pow_succ] at hge
        exact hge
      have := ih (n / 2) L (by omega) hdiv
      simp only [List.length_singleton]
      omega

theorem binDigits_chars (n : Nat) : ∀ c ∈ binDigits n, c = '0' ∨ c = '1' := by
  unfold binDigits
  by_cases h0 : n = 0
  · simp [h0]
  · rw [if_neg h0]
    exact binCore_chars n n le_rfl

theorem binDigits_val (n : Nat) : foldVal ((binDigits n).map bitv) = n := by
  unfold binDigits
  by_cases h0 : n = 0
  · subst h0; rfl
  · rw [if_neg h0]
    exact binCore_val n n le_rfl

theorem binDigits_ne_nil (n : Nat) : binDigits n ≠ [] := by
  unfold binDigits
  by_cases h0 : n = 0
  · simp [h0]
  · rw [if_neg h0]
    cases n with
    | zero => exact absurd rfl h0
    | succ m =>
      unfold binCore
      rw [if_neg h0]
      simp

theorem binDigits_length_le (n L : Nat) (h : n < 2 ^ L) (hL : 0 < L) :
    (binDigits n).length ≤ L := by
  unfold binDigits
  by_cases h0 : n = 0
  · simp [h0]; omega
  · rw [if_neg h0]
    exact binCore_length_le n n L le_rfl h

theorem binDigits_length_gt (n L : Nat) (h : 2 ^ L ≤ n) : L < (binDigits n).length := by
  unfold binDigits
  by_cases h0 : n = 0
  · exfalso
    have := Nat.one_le_two_pow (n := L)
    omega
  · rw [if_neg h0]
    exact binCore_length_gt n n L le_rfl h

theorem foldVal_replicate_zero (k : Nat) (ds : List Nat) :
    foldVal (List.replicate k 0 ++ ds) = foldVal ds := by
  unfold foldVal
  rw [List.foldl_append]
  have hz : List.foldl (fun a d => 2 * a + d) 0 (List.replicate k 0) = 0 := by
    induction k with
    | zero => rfl
    | succ k ih =>
      rw [List.replicate_succ, List.foldl_cons]
      simpa using ih
  rw [hz]

theorem from_int_eq (v L : Nat) :
    BitString.from_int v L =
      some ⟨List.replicate (L - (binDigits v).length) 0 ++ (binDigits v).map bitv⟩ := by
  unfold BitString.from_int BitString.int_repr
  rw [from_str_binChars _
      (fun c hc => by
        rcases List.mem_append.mp hc with h | h
        · exact Or.inl (List.eq_of_mem_replicate h)
        · exact binDigits_chars v c h)]
  congr 2
  rw [List.map_append, List.map_replicate]
  rfl

theorem padDigits_le_one (v L : Nat) :
    ∀ d ∈ List.replicate (L - (binDigits v).length) 0 ++ (binDigits v).map bitv, d ≤ 1 := by
  intro d hd
  rcases List.mem_append.mp hd with h | h
  · rw [List.eq_of_mem_replicate h]
    omega
  · rcases List.mem_map.mp h with ⟨c, _, rfl⟩
    exact bitv_le_one c

theorem padDigits_foldVal (v L : Nat) :
    foldVal (List.replicate (L - (binDigits v).length) 0 ++ (binDigits v).map bitv) = v := by
  rw [foldVal_replicate_zero, binDigits_val]

theorem padDigits_ne_nil (v L : Nat) :
    List.replicate (L - (binDigits v).length) 0 ++ (binDigits v).map bitv ≠ [] := by
  simp [binDigits_ne_nil v]

theorem padDigits_length (v L : Nat) (h : v < 2 ^ L) (hL : 0 < L) :
    (List.replicate (L - (binDigits v).length) 0 ++ (binDigits v).map bitv).length = L := by
  rw [List.length_append, List.length_replicate, List.length_map]
  have := binDigits_length_le v L h hL
  omega

theorem flip_eq (ds : List Nat) :
    BitString.flip ⟨ds⟩ = some ⟨ds.map (fun d => if d = 0 then 1 else 0)⟩ := by
  unfold BitString.flip
  rw [from_str_binChars _
      (fun c hc => by
        rcases List.mem_map.mp hc with ⟨d, _, rfl⟩
        by_cases h0 : d = 0 <;> simp [h0])]
  congr 2
  rw [List.map_map]
  apply List.map_congr_left
  intro d _
  by_cases h0 : d = 0 <;> simp [h0, bitv, Function.comp]

theorem getD_le_one (r : BitString) (i : Nat) (h : ∀ d ∈ r.bits, d ≤ 1) :
    r.bits.getD i 0 ≤ 1 := by
  rw [List.getD_eq_getElem?_getD]
  cases hg : r.bits[i]? with
  | none => simp [hg]
  | some x =>
    simp only [hg, Option.getD_some]
    exact h x (List.getElem?_mem hg)

theorem sumOnes_eq (records : List BitString) (i L : Nat) (hi : i < L)
    (hlen : ∀ r ∈ records, r.bits.length = L) :
    DiagnosticReport.sumOnes records i =
      some ((records.map (fun r => r.bits.getD i 0)).foldl (· + ·) 0) := by
  unfold DiagnosticReport.sumOnes
  rw [mapM_eq_map _ (fun r => r.bits.getD i 0) records
      (fun r hr => by
        unfold BitString.get_bit
        rw [if_pos (by rw [hlen r hr]; exact hi)])]
  rfl

theorem foldl_add_count (l : List Nat) (h : ∀ d ∈ l, d ≤ 1) :
    ∀ a, l.foldl (· + ·) a = a + l.countP (· == 1) := by
  induction l with
  | nil => intro a; simp
  | cons d l ih =>
    intro a
    have hd : d ≤ 1 := h d (by simp)
    rw [List.foldl_cons, List.countP_cons, ih (fun x hx => h x (by simp [hx]))]
    interval_cases d
    · simp
    · rw [show ((1 : Nat) == 1) = true from rfl, if_pos rfl]
      omega

theorem sum_eq_countOnes (records : List BitString) (i : Nat)
    (hbits : ∀ r ∈ records, ∀ d ∈ r.bits, d ≤ 1) :
    (records.map (fun r => r.bits.getD i 0)).foldl (· + ·) 0 = countOnes records i := by
  rw [foldl_add_count _
      (fun d hd => by
        rcases List.mem_map.mp hd with ⟨r, hr, rfl⟩
        exact getD_le_one r i (hbits r hr)) 0]
  rw [Nat.zero_add]
  unfold countOnes
  rw [List.countP_map]
  rfl

theorem bit_length_eq (records : List BitString) (L : Nat) (hne : records ≠ [])
    (hlen : ∀ r ∈ records, r.bits.length = L) :
    (DiagnosticReport.mk records).bit_length = some L := by
  unfold DiagnosticReport.bit_length
  cases records with
  | nil => exact absurd rfl hne
  | cons r0 rest =>
    show some r0.bits.length = some L
    rw [hlen r0 (by simp)]

theorem majorityBits_le_one (records : List BitString) (L : Nat) :
    ∀ d ∈ majorityBits records L, d ≤ 1 := by
  intro d hd
  unfold majorityBits at hd
  rcases List.mem_map.mp hd with ⟨i, _, rfl⟩
  split <;> omega

theorem majorityBits_ne_nil (records : List BitString) (L : Nat) (hL : 0 < L) :
    majorityBits records L ≠ [] := by
  unfold majorityBits
  simp only [ne_eq, List.map_eq_nil_iff, List.range_eq_nil]
  omega

theorem majorityBits_length (records : List BitString) (L : Nat) :
    (majorityBits records L).length = L := by
  unfold majorityBits
  rw [List.length_map, List.length_range]

theorem gamma_rate_eq (records : List BitString) (L : Nat) (hne : records ≠ [])
    (hL : 0 < L) (hlen : ∀ r ∈ records, r.bits.length = L)
    (hbits : ∀ r ∈ records, ∀ d ∈ r.bits, d ≤ 1) :
    (DiagnosticReport.mk records).gamma_rate = some (foldVal (majorityBits records L)) := by
  have hbl := bit_length_eq records L hne hlen
  have hmap := mapM_eq_map
      (fun i => (DiagnosticReport.sumOnes records i).bind
        (fun ones => some (if records.length / 2 < ones then '1' else '0')))
      (fun i => if records.length / 2 < countOnes records i then '1' else '0')
      (List.range L)
      (fun i hi => by
        dsimp only
        rw [sumOnes_eq records i L (List.mem_range.mp hi) hlen, Option.some_bind,
          sum_eq_countOnes records i hbits])
  have hfs := from_str_binChars
      ((List.range L).map (fun i => if records.length / 2 < countOnes records i then '1' else '0'))
      (fun c hc => by
        rcases List.mem_map.mp hc with ⟨i, _, rfl⟩
        split
        · exact Or.inr rfl
        · exact Or.inl rfl)
  have hdig : ((List.range L).map
      (fun i => if records.length / 2 < countOnes records i then '1' else '0')).map bitv =
      majorityBits records L := by
    rw [List.map_map]
    apply List.map_congr_left
    intro i _
    by_cases hc : records.length / 2 < countOnes records i <;>
      simp [hc, bitv, Function.comp]
  have htoInt := toInt_eq_foldVal (majorityBits records L)
      (majorityBits_ne_nil records L hL) (majorityBits_le_one records L)
  unfold DiagnosticReport.gamma_rate
  rw [hbl, Option.some_bind]
  dsimp only
  rw [hmap, Option.some_bind, hfs, Option.some_bind, hdig]
  exact htoInt

theorem from_int_toInt_lt (g L : Nat) (hglt : g < 2 ^ L) (hL : 0 < L) :
    ∃ ds : List Nat, BitString.from_int g L = some ⟨ds⟩ ∧ ds.length = L ∧
      (∀ d ∈ ds, d ≤ 1) ∧ foldVal ds = g := by
  refine ⟨List.replicate (L - (binDigits g).length) 0 ++ (binDigits g).map bitv,
    from_int_eq g L, padDigits_length g L hglt hL, padDigits_le_one g L,
    padDigits_foldVal g L⟩

theorem epsilon_rate_eq (records : List BitString) (L : Nat) (hne : records ≠ [])
    (hL : 0 < L) (hlen : ∀ r ∈ records, r.bits.length = L)
    (hbits : ∀ r ∈ records, ∀ d ∈ r.bits, d ≤ 1) :
    (DiagnosticReport.mk records).epsilon_rate =
      some (2 ^ L - 1 - foldVal (majorityBits records L)) := by
  have hg := gamma_rate_eq records L hne hL hlen hbits
  have hbl := bit_length_eq records L hne hlen
  have hglt : foldVal (majorityBits records L) < 2 ^ L := by
    have := foldVal_lt (majorityBits records L) (majorityBits_le_one records L)
    rwa [majorityBits_length] at this
  obtain ⟨ds, hfi, hdslen, hdsle, hdsval⟩ :=
    from_int_toInt_lt (foldVal (majorityBits records L)) L hglt hL
  have hdsne : ds ≠ [] := by
    intro h
    rw [h] at hdslen
    simp at hdslen
    omega
  have htoInt := toInt_eq_foldVal (ds.map (fun d => if d = 0 then 1 else 0))
      (by rw [ne_eq, List.map_eq_nil_iff]; exact hdsne)
      (by
        intro d hd
        rcases List.mem_map.mp hd with ⟨x, _, rfl⟩
        split <;> omega)
  unfold DiagnosticReport.epsilon_rate
  rw [hg, Option.some_bind, hbl, Option.some_bind, hfi, Option.some_bind,
    flip_eq ds, Option.some_bind, htoInt, foldVal_flip ds hdsle, hdslen, hdsval]

theorem power_consumption_eq (records : List BitString) (L : Nat) (hne : records ≠ [])
    (hL : 0 < L) (hlen : ∀ r ∈ records, r.bits.length = L)
    (hbits : ∀ r ∈ records, ∀ d ∈ r.bits, d ≤ 1) :
    (DiagnosticReport.mk records).power_consumption =
      some (foldVal (majorityBits records L) *
        (2 ^ L - 1 - foldVal (majorityBits records L))) := by
  unfold DiagnosticReport.power_consumption
  rw [gamma_rate_eq records L hne hL hlen hbits, Option.some_bind,
    epsilon_rate_eq records L hne hL hlen hbits, Option.some_bind]

theorem sub_depth_invariant (instructions : List Instruction) :
    ∀ s : Submarine, 0 ≤ s.depth → (∀ i ∈ instructions, 0 ≤ i.value) →
      0 ≤ (instructions.foldl Submarine.process_instruction s).depth := by
  induction instructions with
  | nil => intro s hs _; exact hs
  | cons i is ih =>
    intro s hs h
    rw [List.foldl_cons]
    refine ih _ ?_ (fun j hj => h j (by simp [hj]))
    obtain ⟨t, v⟩ := i
    have hv : (0 : Int) ≤ v := h ⟨t, v⟩ (by simp)
    cases t with
    | forward =>
      simp only [Submarine.process_instruction, Submarine.move_forward]
      exact hs
    | down =>
      simp only [Submarine.process_instruction, Submarine.move_down]
      omega
    | up =>
      simp only [Submarine.process_instruction, Submarine.move_up]
      exact le_max_left 0 _

theorem aim_depth_invariant (instructions : List Instruction) :
    ∀ s : AimSubmarine, 0 ≤ s.depth →
      0 ≤ (instructions.foldl AimSubmarine.process_instruction s).depth := by
  induction instructions with
  | nil => intro s hs; exact hs
  | cons i is ih =>
    intro s hs
    rw [List.foldl_cons]
    refine ih _ ?_
    obtain ⟨t, v⟩ := i
    cases t with
    | forward =>
      simp only [AimSubmarine.process_instruction, AimSubmarine.move_forward]
      exact le_max_left 0 _
    | down =>
      simp only [AimSubmarine.process_instruction, AimSubmarine.move_down]
      exact hs
    | up =>
      simp only [AimSubmarine.process_instruction, AimSubmarine.move_up]
      exact hs

theorem mapM_none_iff {α β : Type} (f : α → Option β) :
    ∀ l : List α, l.mapM f = none ↔ ∃ x ∈ l, f x = none := by
  intro l
  induction l with
  | nil =>
    rw [show ([] : List α).mapM f = some [] from rfl]
    simp
  | cons x xs ih =>
    rw [List.mapM_cons]
    cases hf : f x with
    | none => simp [hf]
    | some y =>
      cases hm : xs.mapM f with
      | none =>
        obtain ⟨c, hc, hfc⟩ := ih.mp hm
        simp only [hf, hm, Option.bind_eq_bind, Option.some_bind, Option.none_bind]
        constructor
        · intro _
          exact ⟨c, List.mem_cons_of_mem x hc, hfc⟩
        · intro _
          trivial
      | some ys =>
        have hnx : ¬∃ c ∈ xs, f c = none := fun hex => by
          rw [ih.mpr hex] at hm
          exact Option.noConfusion hm
        simp only [hf, hm, Option.bind_eq_bind, Option.some_bind]
        apply iff_of_false
        · simp
        · rintro ⟨c, hc, hfc⟩
          rcases List.mem_cons.mp hc with rfl | hmem
          · rw [hf] at hfc; exact Option.noConfusion hfc
          · exact hnx ⟨c, hmem, hfc⟩

theorem from_str_none_iff (s : String) :
    BitString.from_str s = none ↔ ∃ c ∈ s.data, charToDigit c = none := by
  unfold BitString.from_str
  rw [← mapM_none_iff charToDigit s.data]
  cases s.data.mapM charToDigit <;> simp

/-! ## Claims -/

/-- Claim C1: for every diagnostic report built from a non-empty collection of
equal-length bit records, `gamma_rate` is the integer value of the bit string
whose digit at position `i` is 1 exactly when the number of records with a 1
at position `i` is strictly greater than `floor(recordCount / 2)`; and on the
two-record report `["10", "01"]` the majority value is 0, the minority value is
3 and the combined metric is 0. -/
theorem claim_C1 :
    (∀ (records : List BitString) (L : Nat), records ≠ [] → 0 < L →
      (∀ r ∈ records, r.bits.length = L) → (∀ r ∈ records, ∀ d ∈ r.bits, d ≤ 1) →
      (DiagnosticReport.mk records).gamma_rate =
        some (∑ i ∈ Finset.range L,
          (if records.length / 2 < countOnes records i then 2 ^ (L - 1 - i) else 0))) ∧
    (DiagnosticReport.mk [⟨[1, 0]⟩, ⟨[0, 1]⟩]).gamma_rate = some 0 ∧
    (DiagnosticReport.mk [⟨[1, 0]⟩, ⟨[0, 1]⟩]).epsilon_rate = some 3 ∧
    (DiagnosticReport.mk [⟨[1, 0]⟩, ⟨[0, 1]⟩]).power_consumption = some 0 := by
  refine ⟨?_, by decide, by decide, by decide⟩
  intro records L hne hL hlen hbits
  rw [gamma_rate_eq records L hne hL hlen hbits]
  congr 1
  unfold majorityBits
  rw [foldVal_map_range]
  apply Finset.sum_congr rfl
  intro i _
  by_cases hc : records.length / 2 < countOnes records i <;> simp [hc]

/-- Witness for C1: the general part instantiated on the two-record tie report. -/
theorem claim_C1_witness :
    (DiagnosticReport.mk [⟨[1, 0]⟩, ⟨[0, 1]⟩]).gamma_rate =
      some (∑ i ∈ Finset.range 2,
        (if ([⟨[1, 0]⟩, ⟨[0, 1]⟩] : List BitString).length / 2 <
            countOnes [⟨[1, 0]⟩, ⟨[0, 1]⟩] i then 2 ^ (2 - 1 - i) else 0)) :=
  claim_C1.1 [⟨[1, 0]⟩, ⟨[0, 1]⟩] 2 (by decide) (by decide) (by decide) (by decide)

/-- Claim C2: for every well-formed report, `epsilon_rate` is the integer value
of the bitwise complement of the majority bit string re-encoded at the report's
bit length `L` (that is, `2^L - 1 - gamma`), and it follows the complement
rather than an independent least-common-bit tally: on the exact-tie report
`["10", "01"]` the code answers 3 while the independent tally answers 0. -/
theorem claim_C2 :
    (∀ (records : List BitString) (L : Nat), records ≠ [] → 0 < L →
      (∀ r ∈ records, r.bits.length = L) → (∀ r ∈ records, ∀ d ∈ r.bits, d ≤ 1) →
      ∃ g, (DiagnosticReport.mk records).gamma_rate = some g ∧ g < 2 ^ L ∧
        (DiagnosticReport.mk records).epsilon_rate = some (2 ^ L - 1 - g)) ∧
    (DiagnosticReport.mk [⟨[1, 0]⟩, ⟨[0, 1]⟩]).epsilon_rate = some 3 ∧
    minorityTally [⟨[1, 0]⟩, ⟨[0, 1]⟩] 2 = 0 := by
  refine ⟨?_, by decide, by decide⟩
  intro records L hne hL hlen hbits
  refine ⟨foldVal (majorityBits records L), gamma_rate_eq records L hne hL hlen hbits, ?_,
    epsilon_rate_eq records L hne hL hlen hbits⟩
  have := foldVal_lt (majorityBits records L) (majorityBits_le_one records L)
  rwa [majorityBits_length] at this

/-- Witness for C2: the general part instantiated on the two-record tie report. -/
theorem claim_C2_witness :
    ∃ g, (DiagnosticReport.mk [⟨[1, 0]⟩, ⟨[0, 1]⟩]).gamma_rate = some g ∧ g < 2 ^ 2 ∧
      (DiagnosticReport.mk [⟨[1, 0]⟩, ⟨[0, 1]⟩]).epsilon_rate = some (2 ^ 2 - 1 - g) :=
  claim_C2.1 [⟨[1, 0]⟩, ⟨[0, 1]⟩] 2 (by decide) (by decide) (by decide) (by decide)

/-- Claim C3: on the 12-record 5-bit example collection, the diagnostic report
yields majority value 22, minority value 9, and combined metric 198; and in
general the combined metric is the product of the two rates. -/
theorem claim_C3 :
    (DiagnosticReport.mk exampleRecords).gamma_rate = some 22 ∧
    (DiagnosticReport.mk exampleRecords).epsilon_rate = some 9 ∧
    (DiagnosticReport.mk exampleRecords).power_consumption = some 198 ∧
    (∀ (rpt : DiagnosticReport) (g e : Nat), rpt.gamma_rate = some g →
      rpt.epsilon_rate = some e → rpt.power_consumption = some (g * e)) := by
  refine ⟨by decide, by decide, by decide, ?_⟩
  intro rpt g e hg he
  unfold DiagnosticReport.power_consumption
  rw [hg, Option.some_bind, he, Option.some_bind]

/-- Witness for C3: the product form instantiated on the example report. -/
theorem claim_C3_witness :
    (DiagnosticReport.mk exampleRecords).power_consumption = some (22 * 9) :=
  claim_C3.2.2.2 (DiagnosticReport.mk exampleRecords) 22 9 (by decide) (by decide)

/-- Claim C4: round-trip — for every `v` representable in `n > 0` bits,
`from_int v n` succeeds and converting the result back with `toInt` gives `v`. -/
theorem claim_C4 (v n : Nat) (hv : v < 2 ^ n) (hn : 0 < n) :
    ∃ b : BitString, BitString.from_int v n = some b ∧ b.toInt = some v := by
  obtain ⟨ds, hfi, hdslen, hdsle, hdsval⟩ := from_int_toInt_lt v n hv hn
  have hne : ds ≠ [] := by
    intro h
    rw [h] at hdslen
    simp at hdslen
    omega
  exact ⟨⟨ds⟩, hfi, by rw [toInt_eq_foldVal ds hne hdsle, hdsval]⟩

/-- Witness for C4: the round trip at `v = 22`, `n = 5`. -/
theorem claim_C4_witness :
    ∃ b : BitString, BitString.from_int 22 5 = some b ∧ b.toInt = some 22 :=
  claim_C4 22 5 (by norm_num) (by norm_num)

/-- Claim C5: complement involution — flipping a 0/1 `BitString` twice restores
its textual representation; `flip` flips every digit and preserves the length;
and `from_str "10101"` flipped renders as `"01010"`. -/
theorem claim_C5 :
    (∀ b : BitString, (∀ d ∈ b.bits, d ≤ 1) →
      ∃ b1 b2 : BitString, b.flip = some b1 ∧ b1.flip = some b2 ∧
        b1.bits = b.bits.map (fun d => if d = 0 then 1 else 0) ∧
        b1.bits.length = b.bits.length ∧
        b2.reprStr = b.reprStr) ∧
    (∃ b b1 : BitString, BitString.from_str "10101" = some b ∧ b.flip = some b1 ∧
      b1.reprStr = "01010") := by
  constructor
  · intro b hb
    obtain ⟨ds⟩ := b
    have hdd : (ds.map (fun d => if d = 0 then 1 else 0)).map
        (fun d => if d = 0 then 1 else 0) = ds := by
      rw [List.map_map]
      have hcongr : ∀ d ∈ ds,
          ((fun d => if d = 0 then 1 else 0) ∘ (fun d => if d = 0 then 1 else 0)) d = d := by
        intro d hd
        have : d ≤ 1 := hb d hd
        interval_cases d <;> rfl
      rw [List.map_congr_left hcongr]
      exact List.map_id' ds
    refine ⟨⟨ds.map (fun d => if d = 0 then 1 else 0)⟩,
      ⟨(ds.map (fun d => if d = 0 then 1 else 0)).map (fun d => if d = 0 then 1 else 0)⟩,
      flip_eq ds, flip_eq _, rfl, by simp, ?_⟩
    rw [hdd]
  · exact ⟨⟨[1, 0, 1, 0, 1]⟩, ⟨[0, 1, 0, 1, 0]⟩, by decide, by decide, by decide⟩

/-- Witness for C5: the involution instantiated on `10101`. -/
theorem claim_C5_witness :
    ∃ b1 b2 : BitString, (BitString.mk [1, 0, 1, 0, 1]).flip = some b1 ∧
      b1.flip = some b2 ∧
      b1.bits = ([1, 0, 1, 0, 1] : List Nat).map (fun d => if d = 0 then 1 else 0) ∧
      b1.bits.length = ([1, 0, 1, 0, 1] : List Nat).length ∧
      b2.reprStr = (BitString.mk [1, 0, 1, 0, 1]).reprStr :=
  claim_C5.1 ⟨[1, 0, 1, 0, 1]⟩ (by decide)

/-- Counterexample to claim C6: the claim says `from_str` fails whenever some
character is not '0' or '1', but on `"2"` — whose only character is neither —
it succeeds and builds the digit 2. -/
theorem claim_C6_counterexample :
    ('2' ≠ '0' ∧ '2' ≠ '1') ∧ BitString.from_str "2" = some ⟨[2]⟩ := by
  refine ⟨⟨by decide, by decide⟩, by decide⟩

/-- Claim C6 as amended: `from_str` fails exactly when some character is not a
decimal digit; on a string of '0'/'1' characters it succeeds and builds those
digits in order. -/
theorem claim_C6_amended :
    (∀ s : String, BitString.from_str s = none ↔ ∃ c ∈ s.data, charToDigit c = none) ∧
    (∀ s : String, (∀ c ∈ s.data, c = '0' ∨ c = '1') →
      BitString.from_str s = some ⟨s.data.map bitv⟩) := by
  refine ⟨from_str_none_iff, ?_⟩
  intro s h
  exact from_str_binChars s.data h

/-- Witness for the amended C6: failure on `"x"`, success on `"10"`. -/
theorem claim_C6_witness :
    BitString.from_str "x" = none ∧
    BitString.from_str "10" = some ⟨(("10" : String).data.map bitv)⟩ :=
  ⟨(claim_C6_amended.1 "x").mpr ⟨'x', by decide, by decide⟩,
   claim_C6_amended.2 "10" (by decide)⟩

/-- Counterexample to claim C7: the claim says `from_int` fails with an error
whenever `value ≥ 2^length`, but `from_int 5 2` (with `5 ≥ 2^2`) succeeds,
returning the three-digit string `101` instead of a two-digit one. -/
theorem claim_C7_counterexample :
    BitString.from_int 5 2 = some ⟨[1, 0, 1]⟩ ∧
    (∀ b : BitString, BitString.from_int 5 2 = some b → b.bits.length ≠ 2) := by
  refine ⟨by decide, ?_⟩
  intro b hb
  have : b = ⟨[1, 0, 1]⟩ := by
    have h2 : BitString.from_int 5 2 = some ⟨[1, 0, 1]⟩ := by decide
    rw [h2] at hb
    exact (Option.some_inj.mp hb).symm
  rw [this]
  decide

/-- Claim C7 as amended: for positive `length`, `from_int` always succeeds on a
non-negative `value`, with binary digits whose value is exactly `value` (never
truncating); the result has exactly `length` digits when `value < 2^length`,
and strictly more than `length` digits (rather than an error) on overflow. -/
theorem claim_C7_amended (v L : Nat) (hL : 0 < L) :
    ∃ b : BitString, BitString.from_int v L = some b ∧ (∀ d ∈ b.bits, d ≤ 1) ∧
      foldVal b.bits = v ∧
      (v < 2 ^ L → b.bits.length = L) ∧ (2 ^ L ≤ v → L < b.bits.length) := by
  refine ⟨⟨List.replicate (L - (binDigits v).length) 0 ++ (binDigits v).map bitv⟩,
    from_int_eq v L, padDigits_le_one v L, padDigits_foldVal v L,
    fun h => padDigits_length v L h hL, fun h => ?_⟩
  rw [List.length_append, List.length_replicate, List.length_map]
  have := binDigits_length_gt v L h
  omega

/-- Witness for the amended C7: the overflowing call `from_int 5 2`. -/
theorem claim_C7_witness :
    ∃ b : BitString, BitString.from_int 5 2 = some b ∧ (∀ d ∈ b.bits, d ≤ 1) ∧
      foldVal b.bits = 5 ∧
      (5 < 2 ^ 2 → b.bits.length = 2) ∧ (2 ^ 2 ≤ 5 → 2 < b.bits.length) :=
  claim_C7_amended 5 2 (by norm_num)

/-- Claim C8: `get_bit` returns the digit at position `p` (0 = most
significant) when `p < length` and fails when `p ≥ length`; on `1010` it gives
1 at position 0, 0 at position 3, and fails at position 4. -/
theorem claim_C8 :
    (∀ (b : BitString) (p : Nat), p < b.bits.length →
      BitString.get_bit b p = some (b.bits.getD p 0)) ∧
    (∀ (b : BitString) (p : Nat), b.bits.length ≤ p → BitString.get_bit b p = none) ∧
    (∃ b : BitString, BitString.from_str "1010" = some b ∧
      b.get_bit 0 = some 1 ∧ b.get_bit 3 = some 0 ∧ b.get_bit 4 = none) := by
  refine ⟨?_, ?_, ⟨⟨[1, 0, 1, 0]⟩, by decide, by decide, by decide, by decide⟩⟩
  · intro b p h
    unfold BitString.get_bit
    rw [if_pos h]
  · intro b p h
    unfold BitString.get_bit
    rw [if_neg (by omega)]

/-- Witness for C8: both directions at concrete positions of `1010`. -/
theorem claim_C8_witness :
    BitString.get_bit ⟨[1, 0, 1, 0]⟩ 0 =
      some ((BitString.mk [1, 0, 1, 0]).bits.getD 0 0) ∧
    BitString.get_bit ⟨[1, 0, 1, 0]⟩ 4 = none :=
  ⟨claim_C8.1 ⟨[1, 0, 1, 0]⟩ 0 (by decide), claim_C8.2.1 ⟨[1, 0, 1, 0]⟩ 4 (by decide)⟩

/-- Claim C9: starting from position 0 and depth 0, after each instruction of a
sequence with non-negative values, the depth of the plain submarine and of the
aim submarine is never negative. -/
theorem claim_C9 (instructions : List Instruction)
    (h : ∀ i ∈ instructions, 0 ≤ i.value) :
    ∀ k : Nat, 0 ≤ (runSubmarine (instructions.take k)).depth ∧
      0 ≤ (runAimSubmarine (instructions.take k)).depth :=
  fun k =>
    ⟨sub_depth_invariant (instructions.take k) {} (le_refl 0)
        (fun i hi => h i (List.take_subset k instructions hi)),
     aim_depth_invariant (instructions.take k) {} (le_refl 0)⟩

/-- Witness for C9: a concrete instruction sequence that dives and surfaces. -/
theorem claim_C9_witness :
    0 ≤ (runSubmarine
        (List.take 3 ([⟨.forward, 5⟩, ⟨.down, 5⟩, ⟨.up, 8⟩] : List Instruction))).depth ∧
    0 ≤ (runAimSubmarine
        (List.take 3 ([⟨.forward, 5⟩, ⟨.down, 5⟩, ⟨.up, 8⟩] : List Instruction))).depth :=
  claim_C9 [⟨.forward, 5⟩, ⟨.down, 5⟩, ⟨.up, 8⟩] (by decide) 3

/-- Claim C10: for every well-formed report over `L ≥ 1` bits, the two derived
values are exact bitwise complements within `L` bits — their sum is `2^L - 1` —
and the combined metric is `g * (2^L - 1 - g)` for the majority value `g`. -/
theorem claim_C10 (records : List BitString) (L : Nat) (hne : records ≠ []) (hL : 0 < L)
    (hlen : ∀ r ∈ records, r.bits.length = L)
    (hbits : ∀ r ∈ records, ∀ d ∈ r.bits, d ≤ 1) :
    ∃ g e : Nat, (DiagnosticReport.mk records).gamma_rate = some g ∧
      (DiagnosticReport.mk records).epsilon_rate = some e ∧
      g + e = 2 ^ L - 1 ∧
      (DiagnosticReport.mk records).power_consumption = some (g * (2 ^ L - 1 - g)) := by
  have hglt : foldVal (majorityBits records L) < 2 ^ L := by
    have := foldVal_lt (majorityBits records L) (majorityBits_le_one records L)
    rwa [majorityBits_length] at this
  refine ⟨foldVal (majorityBits records L), 2 ^ L - 1 - foldVal (majorityBits records L),
    gamma_rate_eq records L hne hL hlen hbits,
    epsilon_rate_eq records L hne hL hlen hbits, by omega,
    power_consumption_eq records L hne hL hlen hbits⟩

/-- Witness for C10: the complement identity on the 12-record example report. -/
theorem claim_C10_witness :
    ∃ g e : Nat, (DiagnosticReport.mk exampleRecords).gamma_rate = some g ∧
      (DiagnosticReport.mk exampleRecords).epsilon_rate = some e ∧
      g + e = 2 ^ 5 - 1 ∧
      (DiagnosticReport.mk exampleRecords).power_consumption =
        some (g * (2 ^ 5 - 1 - g)) :=
  claim_C10 exampleRecords 5 (by decide) (by decide) (by decide) (by decide)

end AoC2021
